import Mathlib

/-!
Verification of the Magnum `BoolVector` bit container (`src/Math/BoolVector.h`)
and of the mesh-index compressor (`src/MeshTools/CompressIndices.cpp`), via a
shallow embedding: bytes are `Nat` values kept below 256, byte arrays are
`List Nat`, and fallible operations return `Option`.
-/

namespace Magnum

/-! ### `Math::log`

`CompressIndices.cpp` calls `Math::log(256, size)` from `Math/Functions.h`,
which is not among the visible sources. -/

/-- Modelled from the spec: `Math::log(base, number)` of `Math/Functions.h` is missing
from the visible sources; the spec describes it as the integer logarithm
`floor(log_base(number))`, computed by an integer log in base `base` (repeated
division).  `logAux` carries explicit fuel so the recursion is structural;
`Math.log` instantiates the fuel with `number` itself, which suffices because
each step strictly decreases the argument. -/
def Math.logAux (base : Nat) : Nat → Nat → Nat
  | 0, _ => 0
  | fuel + 1, n => if 2 ≤ base ∧ base ≤ n then Math.logAux base fuel (n / base) + 1 else 0

/-- Modelled from the spec: integer logarithm in base `base`; see `Math.logAux`. -/
def Math.log (base number : Nat) : Nat :=
  Math.logAux base number number

theorem Math.logAux_succ (base fuel n : Nat) :
    Math.logAux base (fuel + 1) n =
      if 2 ≤ base ∧ base ≤ n then Math.logAux base fuel (n / base) + 1 else 0 :=
  rfl

theorem Math.logAux_eq_natLog (base : Nat) :
    ∀ fuel n, n ≤ fuel → Math.logAux base fuel n = Nat.log base n := by
  intro fuel
  induction fuel with
  | zero =>
    intro n hn
    have h0 : n = 0 := Nat.le_zero.mp hn
    subst h0
    have haux : Math.logAux base 0 0 = 0 := rfl
    rw [haux, Nat.log_zero_right]
  | succ fuel ih =>
    intro n hn
    rw [Math.logAux_succ]
    by_cases h : 2 ≤ base ∧ base ≤ n
    · have hdiv : n / base < n := Nat.div_lt_self (by omega) (by omega)
      have hfuel : n / base ≤ fuel := by omega
      have hrec := ih (n / base) hfuel
      have hstep : Nat.log base n = Nat.log base (n / base) + 1 :=
        Nat.log_of_one_lt_of_le (by omega) h.2
      rw [if_pos h, hrec, hstep]
    · have hz : Nat.log base n = 0 := Nat.log_eq_zero_iff.mpr (by omega)
      rw [if_neg h, hz]

theorem Math.log_eq_natLog (base number : Nat) :
    Math.log base number = Nat.log base number :=
  Math.logAux_eq_natLog base number number (Nat.le_refl number)

/-! ### The index compressor (`src/MeshTools/CompressIndices.cpp`) -/

/-- `Mesh::IndexType` values used by the compressor. -/
inductive IndexType where
  | UnsignedByte
  | UnsignedShort
  | UnsignedInt
deriving DecidableEq

/-- `Mesh::indexSize`: the byte width of each index type (`sizeof(GLubyte)`,
`sizeof(GLushort)`, `sizeof(GLuint)`). -/
def indexSize : IndexType → Nat
  | IndexType.UnsignedByte => 1
  | IndexType.UnsignedShort => 2
  | IndexType.UnsignedInt => 4

/-- Little-endian byte serialization of a value into `w` bytes, as `memcpy` of a
`w`-byte unsigned integer produces on the little-endian targets. -/
def toBytesLE : Nat → Nat → List Nat
  | 0, _ => []
  | w + 1, v => v % 256 :: toBytesLE w (v / 256)

/-- Little-endian byte deserialization, inverse of `toBytesLE`. -/
def fromBytesLE : List Nat → Nat
  | [] => 0
  | b :: rest => b + 256 * fromBytesLE rest

/-- Decode `n` elements of width `w` bytes from a buffer. -/
def decodeN (w : Nat) : Nat → List Nat → List Nat
  | 0, _ => []
  | n + 1, buf => fromBytesLE (buf.take w) :: decodeN w n (buf.drop w)

/-- `*std::max_element(indices.begin(), indices.end())`: dereferencing the
past-the-end iterator of an empty range has no defined result, so the empty
case is a failure (`none`). -/
def maxElement : List Nat → Option Nat
  | [] => none
  | x :: xs => some (xs.foldl max x)

/-- `compress<T>`: allocate `indices.size() * sizeof(T)` bytes and `memcpy` each
value `static_cast`-narrowed to `T` (i.e. reduced modulo `256 ^ sizeof(T)`) in
sequence order. -/
def compress (t : IndexType) (indices : List Nat) : Nat × IndexType × List Nat :=
  (indices.length, t,
    indices.flatMap (fun v => toBytesLE (indexSize t) (v % 256 ^ indexSize t)))

/-- `compressIndices`: take the maximum, switch on `Math::log(256, max)`
(`case 0` → `GLubyte`, `case 1` → `GLushort`, `case 2`/`case 3` → `GLuint`,
`default` → the fatal `CORRADE_ASSERT`, embedded as `none`). -/
def compressIndices (indices : List Nat) : Option (Nat × IndexType × List Nat) :=
  match maxElement indices with
  | none => none
  | some size =>
    if Math.log 256 size = 0 then some (compress IndexType.UnsignedByte indices)
    else if Math.log 256 size = 1 then some (compress IndexType.UnsignedShort indices)
    else if Math.log 256 size = 2 ∨ Math.log 256 size = 3 then
      some (compress IndexType.UnsignedInt indices)
    else none

/-! Basic facts about `maxElement`. -/

theorem foldl_max_spec (l : List Nat) :
    ∀ a : Nat, a ≤ l.foldl max a ∧ ∀ x ∈ l, x ≤ l.foldl max a := by
  induction l with
  | nil => intro a; exact ⟨Nat.le_refl a, by simp⟩
  | cons b l ih =>
    intro a
    have h := ih (max a b)
    refine ⟨le_trans (le_max_left a b) h.1, ?_⟩
    intro x hx
    rcases List.mem_cons.mp hx with h1 | h2
    · rw [h1]
      exact le_trans (le_max_right a b) h.1
    · exact h.2 x h2

theorem foldl_max_mem (l : List Nat) :
    ∀ a : Nat, l.foldl max a = a ∨ l.foldl max a ∈ l := by
  induction l with
  | nil => intro a; exact Or.inl rfl
  | cons b l ih =>
    intro a
    rcases ih (max a b) with h | h
    · rcases Nat.le_total a b with hab | hba
      · right
        rw [List.foldl_cons, h, max_eq_right hab]
        exact List.mem_cons_self b l
      · left
        rw [List.foldl_cons, h, max_eq_left hba]
    · right
      exact List.mem_cons_of_mem b h

theorem maxElement_le (l : List Nat) (m : Nat) (hm : maxElement l = some m) :
    ∀ x ∈ l, x ≤ m := by
  cases l with
  | nil => simp [maxElement] at hm
  | cons a l =>
    simp only [maxElement, Option.some.injEq] at hm
    intro x hx
    rcases List.mem_cons.mp hx with h1 | h2
    · subst h1; rw [← hm]; exact (foldl_max_spec l x).1
    · rw [← hm]; exact (foldl_max_spec l a).2 x h2

theorem maxElement_mem (l : List Nat) (m : Nat) (hm : maxElement l = some m) :
    m ∈ l := by
  cases l with
  | nil => simp [maxElement] at hm
  | cons a l =>
    simp only [maxElement, Option.some.injEq] at hm
    rcases foldl_max_mem l a with h | h
    · rw [← hm, h]; exact List.mem_cons_self a l
    · rw [← hm]; exact List.mem_cons_of_mem a h

theorem maxElement_isSome (l : List Nat) (hne : l ≠ []) :
    ∃ m, maxElement l = some m := by
  cases l with
  | nil => exact absurd rfl hne
  | cons a l => exact ⟨l.foldl max a, rfl⟩

/-! Serialization round-trip facts. -/

theorem toBytesLE_length : ∀ w v, (toBytesLE w v).length = w := by
  intro w
  induction w with
  | zero => intro v; rfl
  | succ w ih => intro v; simp [toBytesLE, ih]

theorem fromBytesLE_toBytesLE : ∀ w v, fromBytesLE (toBytesLE w v) = v % 256 ^ w := by
  intro w
  induction w with
  | zero => intro v; simp [toBytesLE, fromBytesLE, Nat.mod_one]
  | succ w ih =>
    intro v
    have hpow : (256 : Nat) ^ (w + 1) = 256 * 256 ^ w := by
      rw [pow_succ, Nat.mul_comm]
    rw [toBytesLE, fromBytesLE, ih, hpow, Nat.mod_mul]

theorem flatMap_toBytesLE_length (w : Nat) :
    ∀ l : List Nat, (l.flatMap fun v => toBytesLE w (v % 256 ^ w)).length = l.length * w := by
  intro l
  induction l with
  | nil => simp
  | cons v l ih =>
    simp [List.flatMap_cons, List.length_append, toBytesLE_length, ih, Nat.succ_mul,
      Nat.add_comm]

theorem decodeN_flatMap (w : Nat) :
    ∀ l : List Nat, (∀ v ∈ l, v < 256 ^ w) →
      decodeN w l.length (l.flatMap fun v => toBytesLE w (v % 256 ^ w)) = l := by
  intro l
  induction l with
  | nil => intro _; rfl
  | cons v l ih =>
    intro h
    have hv : v < 256 ^ w := h v (List.mem_cons_self v l)
    have hmod : v % 256 ^ w = v := Nat.mod_eq_of_lt hv
    have hlen : (toBytesLE w (v % 256 ^ w)).length = w := toBytesLE_length w _
    rw [List.flatMap_cons, List.length_cons, decodeN, List.take_left' hlen,
      List.drop_left' hlen, fromBytesLE_toBytesLE, hmod, Nat.mod_eq_of_lt hv,
      ih (fun x hx => h x (List.mem_cons_of_mem v hx))]

theorem compress_spec (t : IndexType) (l : List Nat)
    (h : ∀ v ∈ l, v < 256 ^ indexSize t) :
    compress t l =
      (l.length, t, l.flatMap fun v => toBytesLE (indexSize t) (v % 256 ^ indexSize t)) ∧
    (compress t l).2.2.length = l.length * indexSize t ∧
    decodeN (indexSize t) l.length (compress t l).2.2 = l :=
  ⟨rfl, flatMap_toBytesLE_length (indexSize t) l, decodeN_flatMap (indexSize t) l h⟩

/-- Branch analysis of `compressIndices`: with maximum `m < 2^32`, some 1-, 2- or
4-byte branch is taken, and the chosen width can hold `m`. -/
theorem compressIndices_eq_some (l : List Nat) (m : Nat)
    (hm : maxElement l = some m) (h32 : m < 2 ^ 32) :
    ∃ t, compressIndices l = some (compress t l) ∧ m < 256 ^ indexSize t := by
  have hpow : (256 : Nat) ^ 4 = 2 ^ 32 := by norm_num
  have hk3 : Nat.log 256 m ≤ 3 := by
    by_cases hm0 : m = 0
    · subst hm0; simp
    · have h32x : m < 256 ^ 4 := by rw [hpow]; exact h32
      have := Nat.log_lt_of_lt_pow hm0 h32x
      omega
  have hklt : m < 256 ^ (Nat.log 256 m + 1) := Nat.lt_pow_succ_log_self (by norm_num) m
  rcases Nat.lt_or_ge (Nat.log 256 m) 1 with h0 | h1
  · have hk : Math.log 256 m = 0 := by rw [Math.log_eq_natLog]; omega
    have hk0 : Nat.log 256 m = 0 := by omega
    refine ⟨IndexType.UnsignedByte, ?_, ?_⟩
    · simp [compressIndices, hm, hk]
    · rw [hk0] at hklt
      simpa [indexSize] using hklt
  rcases Nat.lt_or_ge (Nat.log 256 m) 2 with h2 | h2
  · have hk0 : Nat.log 256 m = 1 := by omega
    have hk : Math.log 256 m = 1 := by rw [Math.log_eq_natLog]; omega
    refine ⟨IndexType.UnsignedShort, ?_, ?_⟩
    · simp [compressIndices, hm, hk]
    · rw [hk0] at hklt
      simpa [indexSize] using hklt
  · have hk0 : Nat.log 256 m = 2 ∨ Nat.log 256 m = 3 := by omega
    have hk : Math.log 256 m = 2 ∨ Math.log 256 m = 3 := by
      rw [Math.log_eq_natLog]; omega
    have hk1 : Math.log 256 m ≠ 0 := by rw [Math.log_eq_natLog]; omega
    have hk2 : Math.log 256 m ≠ 1 := by rw [Math.log_eq_natLog]; omega
    refine ⟨IndexType.UnsignedInt, ?_, ?_⟩
    · simp [compressIndices, hm, hk, hk1, hk2]
    · have hmlt : m < 256 ^ 4 := by
        rcases hk0 with hkk | hkk <;> rw [hkk] at hklt
        · calc m < 256 ^ 3 := hklt
            _ ≤ 256 ^ 4 := by norm_num
        · exact hklt
      simpa [indexSize] using hmlt

/-! Claim theorems for the index compressor. -/

/-- C2: for a non-empty input with maximum `m`, `compressIndices` selects element
width 1 when `m ≤ 255`, width 2 when `256 ≤ m ≤ 65535`, and width 4 when
`65536 ≤ m < 2^32`; in particular `[5]` yields width 1 with buffer `[5]`,
`[300]` yields width 2 and `[70000]` yields width 4. -/
theorem compressIndices_selects_width (l : List Nat) (m : Nat)
    (hm : maxElement l = some m) :
    (m ≤ 255 → (compressIndices l).map (fun r => indexSize r.2.1) = some 1) ∧
    (256 ≤ m → m ≤ 65535 → (compressIndices l).map (fun r => indexSize r.2.1) = some 2) ∧
    (65536 ≤ m → m < 2 ^ 32 → (compressIndices l).map (fun r => indexSize r.2.1) = some 4) ∧
    compressIndices [5] = some (1, IndexType.UnsignedByte, [5]) ∧
    (compressIndices [300]).map (fun r => indexSize r.2.1) = some 2 ∧
    (compressIndices [70000]).map (fun r => indexSize r.2.1) = some 4 := by
  refine ⟨?_, ?_, ?_, by decide, by decide, by decide⟩
  · intro h255
    have hk : Math.log 256 m = 0 := by
      rw [Math.log_eq_natLog]
      exact Nat.log_eq_zero_iff.mpr (Or.inl (by omega))
    simp [compressIndices, hm, hk, compress, indexSize]
  · intro hlo hhi
    have hk : Math.log 256 m = 1 := by
      rw [Math.log_eq_natLog]
      refine Nat.log_eq_of_pow_le_of_lt_pow ?_ ?_
      · simpa using hlo
      · show m < 256 ^ 2
        norm_num
        omega
    simp [compressIndices, hm, hk, compress, indexSize]
  · intro hlo hhi
    have hm0 : m ≠ 0 := by omega
    have hlow : 2 ≤ Nat.log 256 m := by
      rw [← Nat.pow_le_iff_le_log (by norm_num) hm0]
      show 256 ^ 2 ≤ m
      norm_num
      omega
    have hhigh : Nat.log 256 m < 4 := by
      refine Nat.log_lt_of_lt_pow hm0 ?_
      show m < 256 ^ 4
      norm_num
      omega
    have hk1 : Math.log 256 m ≠ 0 := by rw [Math.log_eq_natLog]; omega
    have hk2 : Math.log 256 m ≠ 1 := by rw [Math.log_eq_natLog]; omega
    have hk : Nat.log 256 m = 2 ∨ Nat.log 256 m = 3 := by omega
    rcases hk with hk | hk
    · have hkM : Math.log 256 m = 2 := by rw [Math.log_eq_natLog]; exact hk
      simp [compressIndices, hm, hk1, hk2, hkM, compress, indexSize]
    · have hkM : Math.log 256 m = 3 := by rw [Math.log_eq_natLog]; exact hk
      simp [compressIndices, hm, hk1, hk2, hkM, compress, indexSize]

/-- Witness for C2 at the concrete input `[300]` with maximum `300`. -/
theorem compressIndices_selects_width_witness :
    maxElement [300] = some 300 ∧
    ((300 ≤ 255 → (compressIndices [300]).map (fun r => indexSize r.2.1) = some 1) ∧
     (256 ≤ 300 → 300 ≤ 65535 → (compressIndices [300]).map (fun r => indexSize r.2.1) = some 2) ∧
     (65536 ≤ 300 → 300 < 2 ^ 32 → (compressIndices [300]).map (fun r => indexSize r.2.1) = some 4) ∧
     compressIndices [5] = some (1, IndexType.UnsignedByte, [5]) ∧
     (compressIndices [300]).map (fun r => indexSize r.2.1) = some 2 ∧
     (compressIndices [70000]).map (fun r => indexSize r.2.1) = some 4) :=
  ⟨rfl, compressIndices_selects_width [300] 300 rfl⟩

/-- C3: for a non-empty sequence of values below `2^32`, `compressIndices`
produces a buffer of exactly `count * elementWidth` bytes whose elements, decoded
at the reported width, reproduce the input values in their original order. -/
theorem compressIndices_roundtrip (l : List Nat) (hne : l ≠ [])
    (h32 : ∀ x ∈ l, x < 2 ^ 32) :
    ∃ t buf, compressIndices l = some (l.length, t, buf) ∧
      buf.length = l.length * indexSize t ∧
      decodeN (indexSize t) l.length buf = l := by
  obtain ⟨m, hm⟩ := maxElement_isSome l hne
  have hmlt : m < 2 ^ 32 := h32 m (maxElement_mem l m hm)
  obtain ⟨t, ht, hfit⟩ := compressIndices_eq_some l m hm hmlt
  have hvals : ∀ v ∈ l, v < 256 ^ indexSize t :=
    fun v hv => Nat.lt_of_le_of_lt (maxElement_le l m hm v hv) hfit
  obtain ⟨heq, hlen, hdec⟩ := compress_spec t l hvals
  exact ⟨t, (compress t l).2.2, by rw [ht, heq], hlen, hdec⟩

/-- Witness for C3 at the concrete input `[5]`. -/
theorem compressIndices_roundtrip_witness :
    ([5] : List Nat) ≠ [] ∧ (∀ x ∈ ([5] : List Nat), x < 2 ^ 32) ∧
    (∃ t buf, compressIndices [5] = some (([5] : List Nat).length, t, buf) ∧
      buf.length = ([5] : List Nat).length * indexSize t ∧
      decodeN (indexSize t) ([5] : List Nat).length buf = [5]) :=
  ⟨by decide, by decide, compressIndices_roundtrip [5] (by decide) (by decide)⟩

/-- C8: compressing an empty sequence fails — the maximum-finding step has no
maximum to examine, so the embedded function reports an error (`none`) rather
than returning a `(count, width, buffer)` triple. -/
theorem compressIndices_empty_fails : compressIndices [] = none := rfl

/-- C10: for any non-empty sequence of values below `2^32` the fatal
"no type able to index" default branch is unreachable — the integer log base 256
of the maximum is at most 3, so `compressIndices` always returns a result. -/
theorem compressIndices_assert_unreachable (l : List Nat) (hne : l ≠ [])
    (h32 : ∀ x ∈ l, x < 2 ^ 32) :
    (compressIndices l).isSome = true := by
  obtain ⟨m, hm⟩ := maxElement_isSome l hne
  have hmlt : m < 2 ^ 32 := h32 m (maxElement_mem l m hm)
  obtain ⟨t, ht, _⟩ := compressIndices_eq_some l m hm hmlt
  rw [ht]
  rfl

/-- Witness for C10 at the concrete input `[70000]`. -/
theorem compressIndices_assert_unreachable_witness :
    ([70000] : List Nat) ≠ [] ∧ (∀ x ∈ ([70000] : List Nat), x < 2 ^ 32) ∧
    (compressIndices [70000]).isSome = true :=
  ⟨by decide, by decide,
    compressIndices_assert_unreachable [70000] (by decide) (by decide)⟩

/-! ### The bit container (`src/Math/BoolVector.h`)

`BoolVector<size>` stores `size` boolean bits packed into an array of
`DataSize = (size-1)/8+1` unsigned bytes; bits beyond index `size-1` in the
last byte are "don't-care" bits. -/

/-- `BoolVector<size>::DataSize = (size-1)/8+1`. -/
def DataSize (size : Nat) : Nat := (size - 1) / 8 + 1

/-- `Math::BoolVector<size>`: the backing byte array (`UnsignedByte _data[DataSize]`).
Bytes are `Nat` values; `BoolVector.WF` states the representation invariant the
C++ type system enforces (array length `DataSize`, each byte below 256). -/
structure BoolVector (size : Nat) where
  data : List Nat
deriving DecidableEq

namespace BoolVector

variable {size : Nat}

/-- Representation invariant of the C++ byte array. -/
def WF (v : BoolVector size) : Prop :=
  v.data.length = DataSize size ∧ ∀ b ∈ v.data, b < 256

instance (v : BoolVector size) : Decidable (WF v) := by
  unfold WF; infer_instance

/-- `FullSegmentMask = 0xFF`. -/
def FullSegmentMask : Nat := 0xFF

/-- `LastSegmentMask = (1 << size%8) - 1`. -/
def LastSegmentMask (size : Nat) : Nat := (1 <<< (size % 8)) - 1

/-- `operator[]`: `(_data[i/8] >> i%8) & 0x01` as a boolean. -/
def get (v : BoolVector size) (i : Nat) : Bool :=
  (v.data.getD (i / 8) 0 >>> (i % 8)) &&& 1 == 1

/-- `set(i, value)`: `_data[i/8] |= ((value & 0x01) << i%8)`. -/
def set (v : BoolVector size) (i : Nat) (value : Bool) : BoolVector size :=
  ⟨v.data.set (i / 8)
    (v.data.getD (i / 8) 0 ||| ((if value then 1 else 0) <<< (i % 8)))⟩

/-- `operator==`: compare the `size/8` full segments byte for byte, then, when
`size%8` is non-zero, compare the last segment under `LastSegmentMask`. -/
def beq (a b : BoolVector size) : Bool :=
  ((List.range (size / 8)).all fun i => a.data.getD i 0 == b.data.getD i 0) &&
  (size % 8 == 0 ||
    ((a.data.getD (DataSize size - 1) 0 &&& LastSegmentMask size) ==
     (b.data.getD (DataSize size - 1) 0 &&& LastSegmentMask size)))

/-- `all()`: every full segment equals `FullSegmentMask` and, when `size%8` is
non-zero, the last segment masked with `LastSegmentMask` equals the mask. -/
def all (v : BoolVector size) : Bool :=
  ((List.range (size / 8)).all fun i => v.data.getD i 0 == FullSegmentMask) &&
  (size % 8 == 0 ||
    (v.data.getD (DataSize size - 1) 0 &&& LastSegmentMask size) == LastSegmentMask size)

/-- `none()`: every full segment is zero and, when `size%8` is non-zero, the
last segment masked with `LastSegmentMask` is zero. -/
def none (v : BoolVector size) : Bool :=
  ((List.range (size / 8)).all fun i => v.data.getD i 0 == 0) &&
  (size % 8 == 0 ||
    (v.data.getD (DataSize size - 1) 0 &&& LastSegmentMask size) == 0)

/-- `any() = !none()`. -/
def any (v : BoolVector size) : Bool :=
  !v.none

/-- `operator~`: byte-wise complement (`~b` stored into an 8-bit byte equals
`b XOR 0xFF` for `b < 256`). -/
def compl (v : BoolVector size) : BoolVector size :=
  ⟨v.data.map fun b => b ^^^ 0xFF⟩

/-- `operator&=` / `operator&`: byte-wise AND over the whole backing array. -/
def and (a b : BoolVector size) : BoolVector size :=
  ⟨List.zipWith (· &&& ·) a.data b.data⟩

/-- `operator|=` / `operator|`: byte-wise OR over the whole backing array. -/
def or (a b : BoolVector size) : BoolVector size :=
  ⟨List.zipWith (· ||| ·) a.data b.data⟩

/-- `operator^=` / `operator^`: byte-wise XOR over the whole backing array. -/
def xor (a b : BoolVector size) : BoolVector size :=
  ⟨List.zipWith (· ^^^ ·) a.data b.data⟩

/-- `BoolVector(bool)`: the fill constructor sets every byte to
`value ? FullSegmentMask : 0` (via `Implementation::repeat` over a generated
index sequence of length `DataSize`). -/
def fill (size : Nat) (value : Bool) : BoolVector size :=
  ⟨List.replicate (DataSize size) (if value then FullSegmentMask else 0)⟩

/-! Bit-level toolkit. -/

theorem lastSegmentMask_eq (size : Nat) :
    LastSegmentMask size = 2 ^ (size % 8) - 1 := by
  rw [LastSegmentMask, Nat.one_shiftLeft]

theorem get_eq_testBit (v : BoolVector size) (i : Nat) :
    v.get i = Nat.testBit (v.data.getD (i / 8) 0) (i % 8) := by
  unfold get
  generalize v.data.getD (i / 8) 0 = b
  rw [Nat.testBit_to_div_mod, Nat.and_one_is_mod, Nat.shiftRight_eq_div_pow]
  rcases Nat.mod_two_eq_zero_or_one (b / 2 ^ (i % 8)) with h | h <;> rw [h] <;> rfl

theorem byte_eq_iff (x y : Nat) (hx : x < 256) (hy : y < 256) :
    x = y ↔ ∀ j, j < 8 → x.testBit j = y.testBit j := by
  constructor
  · rintro rfl j _; rfl
  · intro h
    apply Nat.eq_of_testBit_eq
    intro j
    by_cases hj : j < 8
    · exact h j hj
    · have h8 : (256 : Nat) ≤ 2 ^ j := by
        calc (256 : Nat) = 2 ^ 8 := by norm_num
          _ ≤ 2 ^ j := Nat.pow_le_pow_right (by norm_num) (by omega)
      rw [Nat.testBit_lt_two_pow (Nat.lt_of_lt_of_le hx h8),
        Nat.testBit_lt_two_pow (Nat.lt_of_lt_of_le hy h8)]

theorem masked_eq_iff (k x y : Nat) :
    x &&& (2 ^ k - 1) = y &&& (2 ^ k - 1) ↔ ∀ j, j < k → x.testBit j = y.testBit j := by
  constructor
  · intro h j hj
    have hc := congrArg (fun z => Nat.testBit z j) h
    simpa [Nat.testBit_and, Nat.testBit_two_pow_sub_one, hj] using hc
  · intro h
    apply Nat.eq_of_testBit_eq
    intro j
    rw [Nat.testBit_and, Nat.testBit_and, Nat.testBit_two_pow_sub_one]
    by_cases hj : j < k
    · rw [h j hj]
    · simp [hj]

theorem masked_full_iff (k x : Nat) :
    x &&& (2 ^ k - 1) = 2 ^ k - 1 ↔ ∀ j, j < k → x.testBit j = true := by
  have h := masked_eq_iff k x (2 ^ k - 1)
  rw [Nat.and_self] at h
  rw [h]
  constructor
  · intro h j hj
    rw [h j hj, Nat.testBit_two_pow_sub_one]
    simp [hj]
  · intro h j hj
    rw [h j hj, Nat.testBit_two_pow_sub_one]
    simp [hj]

theorem masked_zero_iff (k x : Nat) :
    x &&& (2 ^ k - 1) = 0 ↔ ∀ j, j < k → x.testBit j = false := by
  have h := masked_eq_iff k x 0
  rw [Nat.zero_and] at h
  rw [h]
  simp

theorem byte_full_iff (x : Nat) (hx : x < 256) :
    x = 255 ↔ ∀ j, j < 8 → x.testBit j = true := by
  rw [byte_eq_iff x 255 hx (by norm_num)]
  have h255 : (255 : Nat) = 2 ^ 8 - 1 := by norm_num
  constructor
  · intro h j hj
    rw [h j hj, h255, Nat.testBit_two_pow_sub_one]
    simp [hj]
  · intro h j hj
    rw [h j hj, h255, Nat.testBit_two_pow_sub_one]
    simp [hj]

theorem byte_zero_iff (x : Nat) (hx : x < 256) :
    x = 0 ↔ ∀ j, j < 8 → x.testBit j = false := by
  rw [byte_eq_iff x 0 hx (by norm_num)]
  simp

theorem bit_index_cases (size i : Nat) (hi : i < size) :
    i / 8 < size / 8 ∨
    (size % 8 ≠ 0 ∧ i / 8 = DataSize size - 1 ∧ i % 8 < size % 8) := by
  unfold DataSize
  omega

theorem full_index_lt (size q j : Nat) (hq : q < size / 8) (hj : j < 8) :
    8 * q + j < size := by omega

theorem last_index_lt (size j : Nat) (hj : j < size % 8) :
    8 * (size / 8) + j < size := by omega

theorem full_seg_lt_dataSize (size q : Nat) (hq : q < size / 8) :
    q < DataSize size := by
  unfold DataSize
  omega

theorem dataSize_pred (size : Nat) (h0 : size % 8 ≠ 0) :
    DataSize size - 1 = size / 8 := by
  unfold DataSize
  omega

theorem WF.byte_lt {v : BoolVector size} (h : v.WF) {q : Nat} (hq : q < DataSize size) :
    v.data.getD q 0 < 256 := by
  have hlen : q < v.data.length := by rw [h.1]; exact hq
  rw [List.getD_eq_getElem?_getD, List.getElem?_eq_getElem hlen, Option.getD_some]
  exact h.2 _ (List.getElem_mem hlen)

theorem get_decomp (v : BoolVector size) (q j : Nat) (hj : j < 8) :
    v.get (8 * q + j) = Nat.testBit (v.data.getD q 0) j := by
  rw [get_eq_testBit]
  have h1 : (8 * q + j) / 8 = q := by omega
  have h2 : (8 * q + j) % 8 = j := by omega
  rw [h1, h2]

/-! The observable meaning of `beq`, `all` and `none` in terms of meaningful bits. -/

theorem beq_iff_bits (a b : BoolVector size) (ha : a.WF) (hb : b.WF) :
    a.beq b = true ↔ ∀ i, i < size → a.get i = b.get i := by
  unfold beq
  rw [Bool.and_eq_true, List.all_eq_true]
  constructor
  · rintro ⟨hfull, hlast⟩ i hi
    rw [get_eq_testBit, get_eq_testBit]
    rcases bit_index_cases size i hi with hq | ⟨h0, hq, hr⟩
    · have hbyte : a.data.getD (i / 8) 0 = b.data.getD (i / 8) 0 := by
        simpa using hfull (i / 8) (List.mem_range.mpr hq)
      rw [hbyte]
    · rw [Bool.or_eq_true] at hlast
      rcases hlast with hz | hmask
      · exact absurd (by simpa using hz) h0
      · have hm : a.data.getD (DataSize size - 1) 0 &&& LastSegmentMask size =
            b.data.getD (DataSize size - 1) 0 &&& LastSegmentMask size := by
          simpa using hmask
        rw [lastSegmentMask_eq] at hm
        have hbit := (masked_eq_iff _ _ _).mp hm (i % 8) hr
        rw [hq]
        exact hbit
  · intro h
    refine ⟨?_, ?_⟩
    · intro q hq
      rw [List.mem_range] at hq
      have hqd : q < DataSize size := full_seg_lt_dataSize size q hq
      have hlt1 : a.data.getD q 0 < 256 := ha.byte_lt hqd
      have hlt2 : b.data.getD q 0 < 256 := hb.byte_lt hqd
      have hbyte : a.data.getD q 0 = b.data.getD q 0 := by
        rw [byte_eq_iff _ _ hlt1 hlt2]
        intro j hj
        have hg := h (8 * q + j) (full_index_lt size q j hq hj)
        rw [get_decomp _ _ _ hj, get_decomp _ _ _ hj] at hg
        exact hg
      simpa using hbyte
    · by_cases h0 : size % 8 = 0
      · simp [h0]
      · rw [Bool.or_eq_true]
        right
        rw [lastSegmentMask_eq, dataSize_pred size h0]
        have hmask : a.data.getD (size / 8) 0 &&& (2 ^ (size % 8) - 1) =
            b.data.getD (size / 8) 0 &&& (2 ^ (size % 8) - 1) := by
          rw [masked_eq_iff]
          intro j hj
          have hj8 : j < 8 := by omega
          have hg := h (8 * (size / 8) + j) (last_index_lt size j hj)
          rw [get_decomp _ _ _ hj8, get_decomp _ _ _ hj8] at hg
          exact hg
        simpa using hmask

theorem all_iff_bits (v : BoolVector size) (hv : v.WF) :
    v.all = true ↔ ∀ i, i < size → v.get i = true := by
  unfold all
  rw [Bool.and_eq_true, List.all_eq_true]
  constructor
  · rintro ⟨hfull, hlast⟩ i hi
    rw [get_eq_testBit]
    rcases bit_index_cases size i hi with hq | ⟨h0, hq, hr⟩
    · have hbyte : v.data.getD (i / 8) 0 = FullSegmentMask := by
        simpa using hfull (i / 8) (List.mem_range.mpr hq)
      rw [hbyte, FullSegmentMask]
      have h255 : (0xFF : Nat) = 2 ^ 8 - 1 := by norm_num
      rw [h255, Nat.testBit_two_pow_sub_one]
      simp [Nat.mod_lt i (by norm_num : (0 : Nat) < 8)]
    · rw [Bool.or_eq_true] at hlast
      rcases hlast with hz | hmask
      · exact absurd (by simpa using hz) h0
      · have hm : v.data.getD (DataSize size - 1) 0 &&& LastSegmentMask size =
            LastSegmentMask size := by simpa using hmask
        rw [lastSegmentMask_eq] at hm
        have hbit := (masked_full_iff _ _).mp hm (i % 8) hr
        rw [hq]
        exact hbit
  · intro h
    refine ⟨?_, ?_⟩
    · intro q hq
      rw [List.mem_range] at hq
      have hqd : q < DataSize size := full_seg_lt_dataSize size q hq
      have hlt : v.data.getD q 0 < 256 := hv.byte_lt hqd
      have hbyte : v.data.getD q 0 = 255 := by
        rw [byte_full_iff _ hlt]
        intro j hj
        have hg := h (8 * q + j) (full_index_lt size q j hq hj)
        rw [get_decomp _ _ _ hj] at hg
        exact hg
      simpa [FullSegmentMask] using hbyte
    · by_cases h0 : size % 8 = 0
      · simp [h0]
      · rw [Bool.or_eq_true]
        right
        rw [lastSegmentMask_eq, dataSize_pred size h0]
        have hmask : v.data.getD (size / 8) 0 &&& (2 ^ (size % 8) - 1) =
            2 ^ (size % 8) - 1 := by
          rw [masked_full_iff]
          intro j hj
          have hj8 : j < 8 := by omega
          have hg := h (8 * (size / 8) + j) (last_index_lt size j hj)
          rw [get_decomp _ _ _ hj8] at hg
          exact hg
        simpa using hmask

theorem none_iff_bits (v : BoolVector size) (hv : v.WF) :
    v.none = true ↔ ∀ i, i < size → v.get i = false := by
  unfold none
  rw [Bool.and_eq_true, List.all_eq_true]
  constructor
  · rintro ⟨hfull, hlast⟩ i hi
    rw [get_eq_testBit]
    rcases bit_index_cases size i hi with hq | ⟨h0, hq, hr⟩
    · have hbyte : v.data.getD (i / 8) 0 = 0 := by
        simpa using hfull (i / 8) (List.mem_range.mpr hq)
      rw [hbyte]
      exact Nat.zero_testBit _
    · rw [Bool.or_eq_true] at hlast
      rcases hlast with hz | hmask
      · exact absurd (by simpa using hz) h0
      · have hm : v.data.getD (DataSize size - 1) 0 &&& LastSegmentMask size = 0 := by
          simpa using hmask
        rw [lastSegmentMask_eq] at hm
        have hbit := (masked_zero_iff _ _).mp hm (i % 8) hr
        rw [hq]
        exact hbit
  · intro h
    refine ⟨?_, ?_⟩
    · intro q hq
      rw [List.mem_range] at hq
      have hqd : q < DataSize size := full_seg_lt_dataSize size q hq
      have hlt : v.data.getD q 0 < 256 := hv.byte_lt hqd
      have hbyte : v.data.getD q 0 = 0 := by
        rw [byte_zero_iff _ hlt]
        intro j hj
        have hg := h (8 * q + j) (full_index_lt size q j hq hj)
        rw [get_decomp _ _ _ hj] at hg
        exact hg
      simpa using hbyte
    · by_cases h0 : size % 8 = 0
      · simp [h0]
      · rw [Bool.or_eq_true]
        right
        rw [lastSegmentMask_eq, dataSize_pred size h0]
        have hmask : v.data.getD (size / 8) 0 &&& (2 ^ (size % 8) - 1) = 0 := by
          rw [masked_zero_iff]
          intro j hj
          have hj8 : j < 8 := by omega
          have hg := h (8 * (size / 8) + j) (last_index_lt size j hj)
          rw [get_decomp _ _ _ hj8] at hg
          exact hg
        simpa using hmask

/-! Structural helpers for the algebraic claims. -/

theorem beq_of_data_eq (a b : BoolVector size) (h : a.data = b.data) :
    a.beq b = true := by
  unfold beq
  rw [h]
  simp

theorem compl_compl_data (v : BoolVector size) : v.compl.compl.data = v.data := by
  unfold compl
  simp only [List.map_map]
  have hcomp : ((fun b => b ^^^ 0xFF) ∘ fun b => b ^^^ 0xFF) = (id : Nat → Nat) := by
    funext b
    simp [Function.comp, Nat.xor_assoc]
  rw [hcomp, List.map_id]

theorem zipWith_assoc_of_assoc (f : Nat → Nat → Nat)
    (hf : ∀ x y z, f (f x y) z = f x (f y z)) :
    ∀ l1 l2 l3 : List Nat,
      List.zipWith f (List.zipWith f l1 l2) l3 =
        List.zipWith f l1 (List.zipWith f l2 l3) := by
  intro l1
  induction l1 with
  | nil => intro l2 l3; simp
  | cons a l1 ih =>
    intro l2 l3
    cases l2 with
    | nil => simp
    | cons b l2 =>
      cases l3 with
      | nil => simp
      | cons c l3 => simp [hf, ih]

theorem zipWith_xor_self :
    ∀ l : List Nat, List.zipWith (· ^^^ ·) l l = List.replicate l.length 0 := by
  intro l
  induction l with
  | nil => rfl
  | cons a l ih => simp [List.replicate_succ, Nat.xor_self, ih]

theorem getD_replicate (c : Nat) :
    ∀ n i, i < n → (List.replicate n c).getD i 0 = c := by
  intro n
  induction n with
  | zero => intro i h; omega
  | succ n ih =>
    intro i h
    cases i with
    | zero => simp [List.replicate_succ]
    | succ i =>
      have hih := ih i (by omega)
      simpa [List.replicate_succ] using hih

theorem getD_replicate_zero (n i : Nat) :
    (List.replicate n (0 : Nat)).getD i 0 = 0 := by
  by_cases h : i < n
  · exact getD_replicate 0 n i h
  · rw [List.getD_eq_getElem?_getD, List.getElem?_eq_none]
    · rfl
    · simpa using Nat.le_of_not_lt h

theorem none_replicate_zero (n : Nat) :
    (⟨List.replicate n 0⟩ : BoolVector size).none = true := by
  unfold none
  have hlast : (List.replicate n (0 : Nat)).getD (DataSize size - 1) 0 = 0 :=
    getD_replicate_zero n _
  simp [getD_replicate_zero, hlast, Nat.zero_and]

theorem fill_WF (size : Nat) (b : Bool) : (fill size b).WF := by
  refine ⟨by simp [fill], ?_⟩
  intro x hx
  have hx2 := List.eq_of_mem_replicate hx
  rw [hx2]
  cases b <;> simp [FullSegmentMask]

theorem get_fill (size : Nat) (b : Bool) (i : Nat) (hi : i < size) :
    (fill size b).get i = b := by
  rw [get_eq_testBit]
  have hq : i / 8 < DataSize size := by unfold DataSize; omega
  show Nat.testBit
    ((List.replicate (DataSize size) (if b then FullSegmentMask else 0)).getD (i / 8) 0)
    (i % 8) = b
  rw [getD_replicate _ _ _ hq]
  cases b
  · simp
  · have h255 : (if true then FullSegmentMask else 0) = 2 ^ 8 - 1 := by
      simp [FullSegmentMask]
    rw [h255, Nat.testBit_two_pow_sub_one]
    simp [Nat.mod_lt i (show 0 < 8 by norm_num)]

/-! Claim theorems for `BoolVector`. -/

/-- C1: the claim that `set(i, false)` then `get(i)` returns false FAILS on the code.
`set` is implemented as `_data[i/8] |= ((value & 0x01) << i%8)`, a pure OR, so it
cannot clear a bit: on the vector with data byte `1` (bit 0 set), `set(0, false)`
leaves bit 0 set.  This theorem evaluates the embedded code at that failing input. -/
theorem set_false_cannot_clear :
    ((⟨[1]⟩ : BoolVector 8).set 0 false).get 0 = true := by decide

/-- C4: `a == b` holds iff every meaningful bit (index below `size`) agrees; in
particular two vectors built from segment bytes differing only in the don't-care
tail bits (here `0x0F` vs `0xFF` at 4 bits) compare equal. -/
theorem eq_iff_meaningful_bits (a b : BoolVector size) (ha : a.WF) (hb : b.WF) :
    (a.beq b = true ↔ ∀ i, i < size → a.get i = b.get i) ∧
    (⟨[0x0F]⟩ : BoolVector 4).beq ⟨[0xFF]⟩ = true :=
  ⟨beq_iff_bits a b ha hb, by decide⟩

/-- Witness for C4 at the 4-bit vectors with bytes `0x0F` and `0xFF`. -/
theorem eq_iff_meaningful_bits_witness :
    (⟨[0x0F]⟩ : BoolVector 4).WF ∧ (⟨[0xFF]⟩ : BoolVector 4).WF ∧
    (((⟨[0x0F]⟩ : BoolVector 4).beq ⟨[0xFF]⟩ = true ↔
        ∀ i, i < 4 → (⟨[0x0F]⟩ : BoolVector 4).get i = (⟨[0xFF]⟩ : BoolVector 4).get i) ∧
      (⟨[0x0F]⟩ : BoolVector 4).beq ⟨[0xFF]⟩ = true) :=
  ⟨by decide, by decide, eq_iff_meaningful_bits _ _ (by decide) (by decide)⟩

/-- C5: `all()` is true iff every meaningful bit is true, `none()` is true iff
every meaningful bit is false, and `any()` always equals `!none()`; don't-care
tail bits never influence the results. -/
theorem aggregate_predicates (v : BoolVector size) (hv : v.WF) :
    (v.all = true ↔ ∀ i, i < size → v.get i = true) ∧
    (v.none = true ↔ ∀ i, i < size → v.get i = false) ∧
    v.any = !v.none :=
  ⟨all_iff_bits v hv, none_iff_bits v hv, rfl⟩

/-- Witness for C5 at the 8-bit vector with byte `0xA5`. -/
theorem aggregate_predicates_witness :
    (⟨[0xA5]⟩ : BoolVector 8).WF ∧
    (((⟨[0xA5]⟩ : BoolVector 8).all = true ↔
        ∀ i, i < 8 → (⟨[0xA5]⟩ : BoolVector 8).get i = true) ∧
      ((⟨[0xA5]⟩ : BoolVector 8).none = true ↔
        ∀ i, i < 8 → (⟨[0xA5]⟩ : BoolVector 8).get i = false) ∧
      (⟨[0xA5]⟩ : BoolVector 8).any = !(⟨[0xA5]⟩ : BoolVector 8).none) :=
  ⟨by decide, aggregate_predicates _ (by decide)⟩

/-- C6: equality is reflexive and double bitwise negation is the identity under
the masked equality on meaningful bits. -/
theorem eq_refl_and_double_compl (a : BoolVector size) :
    a.beq a = true ∧ a.compl.compl.beq a = true :=
  ⟨beq_of_data_eq a a rfl, beq_of_data_eq _ a (compl_compl_data a)⟩

/-- C7: the binary operators `&`, `|`, `^` are commutative and associative with
respect to the masked equality on meaningful bits, and `(a ^ a).none()` is true. -/
theorem bitwise_comm_assoc (a b c : BoolVector size) :
    (a.and b).beq (b.and a) = true ∧
    (a.or b).beq (b.or a) = true ∧
    (a.xor b).beq (b.xor a) = true ∧
    ((a.and b).and c).beq (a.and (b.and c)) = true ∧
    ((a.or b).or c).beq (a.or (b.or c)) = true ∧
    ((a.xor b).xor c).beq (a.xor (b.xor c)) = true ∧
    (a.xor a).none = true := by
  refine ⟨?_, ?_, ?_, ?_, ?_, ?_, ?_⟩
  · exact beq_of_data_eq _ _
      (List.zipWith_comm_of_comm _ (fun x y => Nat.and_comm x y) a.data b.data)
  · exact beq_of_data_eq _ _
      (List.zipWith_comm_of_comm _ (fun x y => Nat.or_comm x y) a.data b.data)
  · exact beq_of_data_eq _ _
      (List.zipWith_comm_of_comm _ (fun x y => Nat.xor_comm x y) a.data b.data)
  · exact beq_of_data_eq _ _
      (zipWith_assoc_of_assoc _ (fun x y z => Nat.and_assoc x y z) a.data b.data c.data)
  · exact beq_of_data_eq _ _
      (zipWith_assoc_of_assoc _ (fun x y z => Nat.or_assoc x y z) a.data b.data c.data)
  · exact beq_of_data_eq _ _
      (zipWith_assoc_of_assoc _ (fun x y z => Nat.xor_assoc x y z) a.data b.data c.data)
  · have hdata : a.xor a = ⟨List.replicate a.data.length 0⟩ :=
      congrArg BoolVector.mk (zipWith_xor_self a.data)
    rw [hdata]
    exact none_replicate_zero a.data.length

/-- C9: for `size ≠ 1`, the fill constructor sets every valid bit to the given
boolean: every bit of `fill size b` reads `b`, `fill size true` satisfies `all()`
and `fill size false` satisfies `none()`. -/
theorem fill_constructor (size : Nat) (_h1 : size ≠ 1) (b : Bool) :
    (∀ i, i < size → (fill size b).get i = b) ∧
    (fill size true).all = true ∧
    (fill size false).none = true := by
  refine ⟨fun i hi => get_fill size b i hi, ?_, ?_⟩
  · rw [all_iff_bits _ (fill_WF size true)]
    exact fun i hi => get_fill size true i hi
  · rw [none_iff_bits _ (fill_WF size false)]
    exact fun i hi => get_fill size false i hi

/-- Witness for C9 at `size = 8`, `b = true`. -/
theorem fill_constructor_witness :
    (8 : Nat) ≠ 1 ∧
    ((∀ i, i < 8 → (fill 8 true).get i = true) ∧
      (fill 8 true).all = true ∧
      (fill 8 false).none = true) :=
  ⟨by decide, fill_constructor 8 (by decide) true⟩

end BoolVector

end Magnum
